import Mathlib

/-!
# Verification of the lang-pt parser-combinator library

Shallow embedding of the core data structures and algorithms of the
lang-pt recursive-descent parser library (field trie, lexeme combinators,
tokenization engines, token-stream view, Packrat cache, production
wrappers), with theorems settling the specification claims.

Machine integers (`usize`) are modelled as `Nat`; input bytes as
`List Nat`; Rust `Vec` as `List`; Rust `HashMap` as an association list
whose `insert` prepends (lookup returns the first hit, so prepending has
the same observable replace semantics); fallible code returns
`Option`/`Except`.  Token tags, tokenizer states and node tags are
modelled as `Nat` at the engine level; the field trie stays generic in
its value type.
-/

set_option maxRecDepth 4000

namespace LangPt

/-- Element of the tokenized data (src/lib.rs `Lex`): a token tag plus the
half-open byte span `[start, endPos)`.  The Rust field `end` is a Lean
keyword, hence `endPos`. -/
structure Lex (T : Type) where
  token : T
  start : Nat
  endPos : Nat
  deriving Repr, DecidableEq

/-- Syntax error surfaced to the caller (src/lib.rs `ParseError`). -/
structure ParseError where
  pointer : Nat
  message : String
  deriving Repr, DecidableEq

/-- Internal production error (src/lib.rs `ProductionError`):
soft `Unparsed` vs hard `Validation(pos, msg)`. -/
inductive ProductionError where
  | Unparsed : ProductionError
  | Validation : Nat → String → ProductionError
  deriving Repr, DecidableEq

/-- src/error.rs `ProductionError::is_invalid`. -/
def ProductionError.is_invalid : ProductionError → Bool
  | .Unparsed => false
  | .Validation _ _ => true

/-- Insert an element at position `i` of a list (Rust `Vec::insert`). -/
def insertAt {α : Type} (i : Nat) (x : α) : List α → List α
  | [] => [x]
  | y :: ys => match i with
    | 0 => x :: y :: ys
    | i + 1 => y :: insertAt i x ys

/-- Core loop of Rust `slice::binary_search_by_key` over a list of `Nat`
keys: the interval is `[left, right)`, `fuel` bounds the iteration count
(the interval shrinks every round, so `right - left` rounds suffice).
`Sum.inl i` is Rust's `Ok(i)` (exact hit), `Sum.inr i` is `Err(i)`
(insertion point). -/
def binarySearchGo (keys : List Nat) (target : Nat) : Nat → Nat → Nat → Sum Nat Nat
  | 0, left, _ => Sum.inr left
  | fuel + 1, left, right =>
    if left < right then
      let mid := left + (right - left) / 2
      let k := keys.getD mid 0
      if k < target then binarySearchGo keys target fuel (mid + 1) right
      else if target < k then binarySearchGo keys target fuel left mid
      else Sum.inl mid
    else Sum.inr left

/-- Rust `slice::binary_search_by_key` with a `Nat`-valued key function. -/
def binarySearchByKey {α : Type} (l : List α) (key : α → Nat) (target : Nat) : Sum Nat Nat :=
  binarySearchGo (l.map key) target l.length 0 l.length

/-! ## Field trie (src/field_tree.rs)

An ordered radix trie: a node holds an optional value and a sorted vector
of `(byte, child)` pairs. -/

/-- src/lib.rs `FieldTree`. -/
inductive FieldTree (T : Type) where
  | node : Option T → List (Nat × FieldTree T) → FieldTree T

namespace FieldTree

variable {T : Type}

/-- The node's optional value (`token` field). -/
def token : FieldTree T → Option T
  | node t _ => t

/-- The node's sorted child vector (`children` field). -/
def children : FieldTree T → List (Nat × FieldTree T)
  | node _ cs => cs

/-- `FieldTree::new()`. -/
def new : FieldTree T := node none []

/-- Child lookup: `children.binary_search_by_key(&b, |child| child.0)`
followed by indexing on a hit.  (The index returned by a hit on the
sorted vector is always in range; the `none` fallback of `get?` is
unreachable.) -/
def lookupChild (cs : List (Nat × FieldTree T)) (b : Nat) : Option (FieldTree T) :=
  match binarySearchByKey cs (fun c => c.1) b with
  | Sum.inl i => (cs.get? i).map Prod.snd
  | Sum.inr _ => none

/-- src/field_tree.rs `FieldTree::insert` (returns the already-stored
value on a duplicate key, which the Rust caller formats into a `String`).
The `Sum.inl` hit of the binary search descends into the existing child;
the `Sum.inr` miss builds a fresh subtree and inserts it at the insertion
point, keeping the vector sorted. -/
def insert : FieldTree T → List Nat → T → Except T (FieldTree T)
  | node tok cs, [], value =>
    match tok with
    | some t => Except.error t
    | none => Except.ok (node (some value) cs)
  | node tok cs, b :: rest, value =>
    match binarySearchByKey cs (fun c => c.1) b with
    | Sum.inl i =>
      match cs.get? i with
      | some c =>
        (insert c.2 rest value).map fun c' => node tok (cs.set i (c.1, c'))
      | none => Except.ok (node tok cs)   -- unreachable: binary-search hit is in range
    | Sum.inr i =>
      (insert new rest value).map fun c' => node tok (insertAt i (b, c') cs)

/-- The greedy walk of src/field_tree.rs `FieldTree::find`, structurally
recursing on the remaining bytes instead of the Rust loop's mutable
`index` into the slice; `index` carries the Rust counter. -/
def findGo : List Nat → FieldTree T → Nat → Option (T × Nat)
  | [], t, index => t.token.map fun tok => (tok, index)
  | b :: rest, t, index =>
    match lookupChild t.children b with
    | some child => findGo rest child (index + 1)
    | none => t.token.map fun tok => (tok, index)

/-- src/field_tree.rs `FieldTree::find` (`findLongest` of the spec):
walks the trie greedily along `code_part` and returns the value stored at
the node where the walk stops, paired with the number of bytes consumed. -/
def find (t : FieldTree T) (code_part : List Nat) : Option (T × Nat) :=
  findGo code_part t 0

/-- Length of the maximal greedy descent: the longest prefix of `bytes`
that is a path in the trie. -/
def descentDepth : FieldTree T → List Nat → Nat
  | _, [] => 0
  | t, b :: rest =>
    match lookupChild t.children b with
    | some child => descentDepth child rest + 1
    | none => 0

/-- The value stored at the node reached by following the exact path
`key` (none when the path does not exist or the node holds no value). -/
def valueAtPath : FieldTree T → List Nat → Option T
  | t, [] => t.token
  | t, b :: rest =>
    match lookupChild t.children b with
    | some child => valueAtPath child rest
    | none => none

end FieldTree

/-! ## Punctuations lexeme (src/lexeme/punctuation.rs) -/

/-- Stable insertion of one field into a list sorted by key length
(helper for Rust's stable `sort_by_key(|s| s.0.len())`). -/
def insertByKeyLen {T : Type} (x : List Nat × T) : List (List Nat × T) → List (List Nat × T)
  | [] => [x]
  | y :: ys =>
    if y.1.length ≤ x.1.length then y :: insertByKeyLen x ys
    else x :: y :: ys

/-- Rust's stable `fields.sort_by_key(|s| s.0.len())`. -/
def sortByKeyLen {T : Type} : List (List Nat × T) → List (List Nat × T)
  | [] => []
  | x :: xs => insertByKeyLen x (sortByKeyLen xs)

namespace Punctuations

variable {T : Type}

/-- src/lexeme/punctuation.rs `Punctuations::new`/`add`: sort the fields
by literal length, then insert each literal into the field trie; a
duplicate literal aborts construction (the Rust caller formats the
returned token into an error `String`). -/
def build (fields : List (List Nat × T)) : Except T (FieldTree T) :=
  (sortByKeyLen fields).foldlM (fun t f => FieldTree.insert t f.1 f.2) FieldTree.new

/-- src/lexeme/punctuation.rs `Punctuations::consume`: run the trie's
greedy find on the input from `pointer` on, and wrap a hit into a token
spanning `[pointer, pointer + index)`. -/
def consume (tree : FieldTree T) (code : List Nat) (pointer : Nat) : Option (Lex T) :=
  match tree.find (code.drop pointer) with
  | some (token, index) => some ⟨token, pointer, pointer + index⟩
  | none => none

end Punctuations

/-- `p` is a literal prefix of `l` (the first `p.length` bytes of `l` are
exactly `p`). -/
def leadsList (p l : List Nat) : Prop := l.take p.length = p

instance (p l : List Nat) : Decidable (leadsList p l) := by
  unfold leadsList; infer_instance

/-- The punctuation set `{"a" ↦ 1, "abc" ↦ 2}` ("a" = byte 97). -/
def c1Fields : List (List Nat × Nat) := [([97], 1), ([97, 98, 99], 2)]

/-- The field trie the `Punctuations` constructor builds from `c1Fields`. -/
def c1Tree : FieldTree Nat :=
  (Punctuations.build c1Fields).toOption.getD FieldTree.new

/-! ## AST nodes, parsed results (src/lib.rs, src/success_data.rs) -/

/-- src/lib.rs `ASTNode`: tag, optional raw-token bound, byte span,
ordered children. -/
inductive ASTNode (ν : Type) where
  | mk (node : ν) (bound : Option (Nat × Nat)) (start : Nat) (endPos : Nat)
      (children : List (ASTNode ν)) : ASTNode ν
  deriving Repr

/-- src/ast_node.rs `ASTNode::new(node, start, end, bound, children)`. -/
def ASTNode.new {ν : Type} (node : ν) (start endPos : Nat) (bound : Option (Nat × Nat))
    (children : List (ASTNode ν)) : ASTNode ν :=
  ASTNode.mk node bound start endPos children

/-- src/lib.rs `SuccessData`: consumed index plus flat children list. -/
structure SuccessData (ι ν : Type) where
  consumed_index : ι
  children : List (ASTNode ν)
  deriving Repr

/-- src/success_data.rs `SuccessData::hidden`. -/
def SuccessData.hidden {ι ν : Type} (consumed_index : ι) : SuccessData ι ν :=
  ⟨consumed_index, []⟩

/-- src/success_data.rs `SuccessData::tree`. -/
def SuccessData.tree {ι ν : Type} (consumed_index : ι) (t : ASTNode ν) : SuccessData ι ν :=
  ⟨consumed_index, [t]⟩

/-- src/lib.rs `ParsedResult`. -/
def ParsedResult (ι ν : Type) := Except ProductionError (SuccessData ι ν)

/-! ## Packrat cache (src/cache.rs) -/

/-- src/lib.rs `Cache`: memo of `(CacheKey, bytePos)` to a stored result
`ρ`, plus the max-progress pointer.  The `HashMap` is an association
list whose insert prepends (lookup takes the first hit, giving the same
replace semantics). -/
structure Cache (ρ : Type) where
  parsed_result_cache : List ((Nat × Nat) × ρ)
  max_parsed_point : Nat
  deriving Repr

/-- src/cache.rs `Cache::root`. -/
def Cache.root (ρ : Type) : Cache ρ := ⟨[], 0⟩

/-- src/cache.rs `Cache::contains`. -/
def Cache.contains {ρ : Type} (c : Cache ρ) (key index : Nat) : Bool :=
  (c.parsed_result_cache.lookup (key, index)).isSome

/-- src/cache.rs `Cache::find`: a memo hit is returned only when
`index ≤ max_parsed_point`. -/
def Cache.find {ρ : Type} (c : Cache ρ) (key index : Nat) : Option ρ :=
  if index ≤ c.max_parsed_point then
    c.parsed_result_cache.lookup (key, index)
  else
    none

/-- src/cache.rs `Cache::insert`: stores the result and raises
`max_parsed_point` to `max index max_parsed_point`.  (The Rust method
also hands back the previously stored value, which every caller
discards.) -/
def Cache.insert {ρ : Type} (c : Cache ρ) (key index : Nat) (result : ρ) : Cache ρ :=
  { parsed_result_cache := ((key, index), result) :: c.parsed_result_cache,
    max_parsed_point := max index c.max_parsed_point }

/-- src/cache.rs `Cache::update_index`. -/
def Cache.update_index {ρ : Type} (c : Cache ρ) (index : Nat) : Cache ρ :=
  if c.max_parsed_point < index then { c with max_parsed_point := index } else c

/-- src/cache.rs `Cache::get_index`. -/
def Cache.get_index {ρ : Type} (c : Cache ρ) : Nat := c.max_parsed_point

/-- One cache operation, for stating invariants over arbitrary call
sequences (a `find` reads but does not mutate). -/
inductive CacheOp (ρ : Type) where
  | find (key index : Nat) : CacheOp ρ
  | insert (key index : Nat) (result : ρ) : CacheOp ρ
  | update_index (index : Nat) : CacheOp ρ

/-- Apply one cache operation to the cache state. -/
def CacheOp.apply {ρ : Type} (c : Cache ρ) : CacheOp ρ → Cache ρ
  | .find _ _ => c
  | .insert key index result => c.insert key index result
  | .update_index index => c.update_index index

/-- Apply a sequence of cache operations in order. -/
def Cache.applyOps {ρ : Type} (c : Cache ρ) (ops : List (CacheOp ρ)) : Cache ρ :=
  ops.foldl CacheOp.apply c

/-! ## SeparatedList wrapper (src/production/wrappers/separated_list.rs)

The Rust `consume` is generic over two closures `parse_production` and
`parse_separator` of type `(T, &mut Cache) -> ParsedResult`; they are
modelled as functions threading an abstract cache state `σ` (standing
for the `&mut Cache` borrow).  The loop is given fuel; `none` marks a
run that would not have terminated within it. -/

/-- A production entry point over index type `ι`, node type `ν` and
threaded cache state `σ`. -/
def ParseStep (ι ν σ : Type) := ι → σ → ParsedResult ι ν × σ

namespace SeparatedList

variable {ι ν σ : Type}

/-- The `loop` of `SeparatedList::consume`: `moved_ptr` and `children`
are the accumulator variables of the Rust loop. -/
def consumeGo (inclusive : Bool) (pp ps : ParseStep ι ν σ) :
    Nat → ι → List (ASTNode ν) → σ → Option (ParsedResult ι ν × σ)
  | 0, _, _, _ => none
  | fuel + 1, moved_ptr, children, cache =>
    match ps moved_ptr cache with
    | (Except.ok sd, c1) =>
      match pp sd.consumed_index c1 with
      | (Except.ok nd, c2) =>
        consumeGo inclusive pp ps fuel nd.consumed_index
          (children ++ sd.children ++ nd.children) c2
      | (Except.error e, c2) =>
        if e.is_invalid then some (Except.error e, c2)
        else if inclusive then
          some (Except.ok ⟨sd.consumed_index, children ++ sd.children⟩, c2)
        else
          some (Except.ok ⟨moved_ptr, children⟩, c2)
    | (Except.error e, c1) =>
      if e.is_invalid then some (Except.error e, c1)
      else some (Except.ok ⟨moved_ptr, children⟩, c1)

/-- src/production/wrappers/separated_list.rs `SeparatedList::consume`:
first parse the body (the `?` propagates its error), then loop over
separator-body pairs. -/
def consume (inclusive : Bool) (pp ps : ParseStep ι ν σ) (fuel : Nat) (index : ι)
    (cache : σ) : Option (ParsedResult ι ν × σ) :=
  match pp index cache with
  | (Except.error e, c) => some (Except.error e, c)
  | (Except.ok d, c) => consumeGo inclusive pp ps fuel d.consumed_index d.children c

end SeparatedList

/-! ## Token stream view (src/filtered_stream.rs)

Raw tokens plus the parallel vector of structural (filtered) raw
indices.  Rust's panicking `Index` impls are modelled with `getD` and a
zero token; the panic positions are unreachable for streams built by
`fromList`. -/

/-- src/lib.rs `TokenStream`. -/
structure TokenStream where
  original_stream : List (Lex Nat)
  filtered_stream : List Nat
  deriving Repr

namespace TokenStream

/-- `From<&Vec<Lex>> for TokenStream`: filter to the raw indices of
structural tokens. -/
def fromList (isStructural : Nat → Bool) (s : List (Lex Nat)) : TokenStream :=
  ⟨s, s.enum.filterMap fun jd => if isStructural jd.2.token then some jd.1 else none⟩

/-- `Index<TokenPtr>`: raw-index access. -/
def getRaw (ts : TokenStream) (i : Nat) : Lex Nat :=
  ts.original_stream.getD i ⟨0, 0, 0⟩

/-- `Index<FltrPtr>`: filtered-index access
(`original_stream[filtered_stream[i]]`). -/
def getFltr (ts : TokenStream) (i : Nat) : Lex Nat :=
  ts.getRaw (ts.filtered_stream.getD i 0)

/-- `TokenStream::pointer`: byte start of the structural token at a
filtered index. -/
def pointer (ts : TokenStream) (i : Nat) : Nat := (ts.getFltr i).start

/-- `TokenStream::get_token_ptr`: raw index of the structural token at a
filtered index (named `get_stream_ptr` at some call sites). -/
def get_token_ptr (ts : TokenStream) (i : Nat) : Nat := ts.filtered_stream.getD i 0

/-- `TokenStream::get`: checked filtered-index access. -/
def get (ts : TokenStream) (i : Nat) : Option (Lex Nat) :=
  (ts.filtered_stream.get? i).bind fun s => ts.original_stream.get? s

/-- `TokenStream::filtered_index_at`: binary search of the structural
tokens' byte starts for `code_pointer`; `Sum.inl` is Rust `Ok` (exact
hit), `Sum.inr` is `Err` (insertion point). -/
def filtered_index_at (ts : TokenStream) (code_pointer : Nat) : Sum Nat Nat :=
  binarySearchByKey ts.filtered_stream (fun s => (ts.getRaw s).start) code_pointer

/-- `TokenStream::find_filtered_index`: binary search of the filtered
vector for a raw index, with the miss reported as `Err`. -/
def find_filtered_index (ts : TokenStream) (index : Nat) : Sum Nat Nat :=
  binarySearchByKey ts.filtered_stream id index

/-- `TokenStream::find_filter_ptr` — exactly as written in the source:
BOTH arms of the binary search are wrapped in `Ok` (`Sum.inl`), so the
insertion point of a miss is reported as an exact hit. -/
def find_filter_ptr (ts : TokenStream) (index : Nat) : Sum Nat Nat :=
  match binarySearchByKey ts.filtered_stream id index with
  | Sum.inl i => Sum.inl i
  | Sum.inr i => Sum.inl i

end TokenStream

/-! ## Hidden and Node wrappers
(src/production/wrappers/hidden.rs, node.rs)

The wrapped production's entry point is an abstract function; the token
stream is an extra read-only argument for the token-driven entry points. -/

/-- A token-driven production entry point (`advance_fltr_ptr` /
`advance_token_ptr` shape): code, index, token stream, cache in;
result and cache out. -/
def TokenParseStep (ν σ : Type) := List Nat → Nat → TokenStream → σ → ParsedResult Nat ν × σ

namespace Hidden

/-- hidden.rs `advance_fltr_ptr` / `advance_token_ptr`: delegate and map
a success to `SuccessData::hidden(consumed_index)` (the three Rust
methods are this same shape at each index type). -/
def advance {ν σ : Type} (p : TokenParseStep ν σ) : TokenParseStep ν σ :=
  fun code index token_stream cache =>
    let (r, c') := p code index token_stream cache
    (r.map fun parsed_data => SuccessData.hidden parsed_data.consumed_index, c')

/-- hidden.rs `advance_ptr` (byte-driven entry point, no token stream). -/
def advance_ptr {ν σ : Type} (p : ParseStep Nat ν σ) : ParseStep Nat ν σ :=
  fun index cache =>
    let (r, c') := p index cache
    (r.map fun parsed_data => SuccessData.hidden parsed_data.consumed_index, c')

end Hidden

namespace Node

/-- node.rs `eat_fltr_ptr`: on success, wrap the children into an
`ASTNode` spanning the parsed filtered range when a `node_value` is
given, else behave as `Hidden`. -/
def eat_fltr_ptr {ν σ : Type} (node_value : Option ν) (p : TokenParseStep ν σ) :
    TokenParseStep ν σ :=
  fun code index token_stream cache =>
    let (r, c') := p code index token_stream cache
    (r.map fun parsed_data =>
      match node_value with
      | some node =>
        SuccessData.tree parsed_data.consumed_index
          (ASTNode.new node (token_stream.pointer index)
            (token_stream.pointer parsed_data.consumed_index)
            (some (token_stream.get_token_ptr index,
                   token_stream.get_token_ptr parsed_data.consumed_index))
            parsed_data.children)
      | none => SuccessData.hidden parsed_data.consumed_index, c')

/-- node.rs `eat_token_ptr`: as `eat_fltr_ptr` but spanning raw-token
starts and bounding by the raw indices themselves. -/
def eat_token_ptr {ν σ : Type} (node_value : Option ν) (p : TokenParseStep ν σ) :
    TokenParseStep ν σ :=
  fun code index token_stream cache =>
    let (r, c') := p code index token_stream cache
    (r.map fun parsed_data =>
      match node_value with
      | some node =>
        SuccessData.tree parsed_data.consumed_index
          (ASTNode.new node (token_stream.getRaw index).start
            (token_stream.getRaw parsed_data.consumed_index).start
            (some (index, parsed_data.consumed_index))
            parsed_data.children)
      | none => SuccessData.hidden parsed_data.consumed_index, c')

/-- node.rs `eat_ptr`: byte-driven variant, span is the byte range and
`bound` is `None`. -/
def eat_ptr {ν σ : Type} (node_value : Option ν) (p : ParseStep Nat ν σ) :
    ParseStep Nat ν σ :=
  fun index cache =>
    let (r, c') := p index cache
    (r.map fun parsed_data =>
      match node_value with
      | some node =>
        SuccessData.tree parsed_data.consumed_index
          (ASTNode.new node index parsed_data.consumed_index none parsed_data.children)
      | none => SuccessData.hidden parsed_data.consumed_index, c')

end Node

/-! ## Source positions (src/util/code.rs, src/util/position.rs) -/

/-- src/util/position.rs `Position`. -/
structure Position where
  line : Nat
  column : Nat
  deriving Repr, DecidableEq

/-- `Code::obtain_line_breaks`: indices of the newline bytes (10). -/
def Code.obtain_line_breaks (code : List Nat) : List Nat :=
  code.enum.filterMap fun p => if p.2 = 10 then some p.1 else none

/-- src/util/code.rs `Code::obtain_position`: translate a byte pointer
into (line, column); both binary-search arms collapse to the same index.
(`str::len` of the sliced prefix counts bytes, i.e. the pointer
difference.) -/
def Code.obtain_position (code : List Nat) (pointer : Nat) : Position :=
  let line_breaks := Code.obtain_line_breaks code
  let index := match binarySearchByKey line_breaks id pointer with
    | Sum.inl i => i
    | Sum.inr i => i
  if index = 0 then ⟨1, pointer + 1⟩
  else
    let break_point := line_breaks.getD (index - 1) 0 + 1
    ⟨index + 1, pointer - break_point + 1⟩

/-- The `Display` rendering of a `Position`
(`f.debug_struct("")` with the two fields). -/
def Position.render (p : Position) : String :=
  " \x7b line: " ++ toString p.line ++ ", column: " ++ toString p.column ++ " \x7d"

/-! ## Lexeme combinators (src/lexeme)

`ILexeme::consume` takes the code, cursor, token history and the mutable
state stack, and returns at most one token.  The stack mutation is made
explicit by returning the new stack; the outer `Option` marks the Rust
`panic!` paths (`none` = panicked), and library lexemes that cannot
panic always return `some`.  The state stack models the Rust `Vec` with
its top at the END of the list (`push` appends, `last` reads the end). -/

/-- An `ILexeme` as a function (tokens and states are `Nat`). -/
structure LexemeFn where
  consume : List Nat → Nat → List (Lex Nat) → List Nat →
    Option (Option (Lex Nat) × List Nat)

/-- src/lexeme/punctuation.rs: the `Punctuations` lexeme as a
`LexemeFn` (ignores history and stack; never panics). -/
def Punctuations.toLexemeFn (tree : FieldTree Nat) : LexemeFn :=
  ⟨fun code pointer _ info => some (Punctuations.consume tree code pointer, info)⟩

/-- src/lexeme/mapper.rs `Mapper::consume`: run the inner lexeme, then
rewrite the token tag when the token's byte slice is a key of the map
(`HashMap` modelled as an association list). -/
def Mapper.consume (inner : LexemeFn) (fields : List (List Nat × Nat)) : LexemeFn :=
  ⟨fun code pointer tokenized_stream info =>
    match inner.consume code pointer tokenized_stream info with
    | none => none
    | some (result, st) =>
      some (result.map fun lex_data =>
        let code_part := (code.drop lex_data.start).take (lex_data.endPos - lex_data.start)
        match fields.lookup code_part with
        | some token => { lex_data with token := token }
        | none => lex_data, st)⟩

/-- src/lexeme/mod.rs `Action`: state-stack instruction attached to a
token by a state mixin. -/
inductive Action where
  | Pop (discard : Bool)
  | Append (state : Nat) (discard : Bool)
  | Switch (state : Nat) (discard : Bool)
  | None (discard : Bool)
  deriving Repr, DecidableEq

/-- src/lexeme/mixin.rs `perform_state_action`: apply the action to the
state stack, then either discard the token (return no token) or hand it
through.  `none` is the Rust `panic!` on popping an empty stack. -/
def perform_state_action (lexical_data : Lex Nat) (action : Action)
    (state_stack : List Nat) : Option (Option (Lex Nat) × List Nat) :=
  match action with
  | .Pop discard =>
    match state_stack.getLast? with
    | some _ => some (if discard then none else some lexical_data, state_stack.dropLast)
    | none => none
  | .Append state discard =>
    some (if discard then none else some lexical_data, state_stack ++ [state])
  | .Switch state discard =>
    some (if discard then none else some lexical_data,
      if state_stack.isEmpty then [state] else state_stack.dropLast ++ [state])
  | .None discard =>
    some (if discard then none else some lexical_data, state_stack)

/-- src/lexeme/mixin.rs `StateMixin::consume`: run the inner lexeme; on
a token, binary-search the (token-sorted) action table and perform the
action found, else pass the token through. -/
def StateMixin.consume (inner : LexemeFn) (actions : List (Nat × Action)) : LexemeFn :=
  ⟨fun code pointer tokenized_stream info =>
    match inner.consume code pointer tokenized_stream info with
    | none => none
    | some (some lexical_data, st) =>
      match binarySearchByKey actions (fun a => a.1) lexical_data.token with
      | Sum.inl index =>
        match actions.get? index with
        | some a => perform_state_action lexical_data a.2 st
        | none => some (some lexical_data, st)   -- unreachable: hit is in range
      | Sum.inr _ => some (some lexical_data, st)
    | some (none, st) => some (none, st)⟩

/-- src/lexeme/mixin.rs `ThunkStateMixin::consume`: as `StateMixin` but
the action is computed from the token, the code and the history. -/
def ThunkStateMixin.consume (inner : LexemeFn)
    (thunk_action : Lex Nat → List Nat → List (Lex Nat) → Action) : LexemeFn :=
  ⟨fun code pointer tokenized_stream state_stack =>
    match inner.consume code pointer tokenized_stream state_stack with
    | none => none
    | some (some lexical_data, st) =>
      perform_state_action lexical_data (thunk_action lexical_data code tokenized_stream) st
    | some (none, st) => some (none, st)⟩

/-! ## Tokenization engines (src/tokenization.rs)

Both engines loop `find_map` over the lexeme list; the state stack is
threaded through every tried lexeme (a lexeme may mutate it even when it
returns no token).  The loop is given fuel; `none` covers both a run
that needs more fuel and a Rust `panic!`. -/

/-- `iter().find_map(|lexer| lexer.consume(..))` with the state stack
threaded left to right. -/
def runLexers (lexers : List LexemeFn) (code : List Nat) (pointer : Nat)
    (tokenized_stream : List (Lex Nat)) (state_stack : List Nat) :
    Option (Option (Lex Nat) × List Nat) :=
  match lexers with
  | [] => some (none, state_stack)
  | l :: rest =>
    match l.consume code pointer tokenized_stream state_stack with
    | none => none
    | some (some lex_data, st) => some (some lex_data, st)
    | some (none, st) => runLexers rest code pointer tokenized_stream st

/-- The "Failed to tokenize" `ParseError` of both engines. -/
def tokenizeError (code : List Nat) (pointer : Nat) : ParseError :=
  ⟨pointer, "Failed to tokenize code @ " ++ (Code.obtain_position code pointer).render⟩

/-- Loop of src/tokenization.rs `Tokenizer::tokenize` (single-state
engine): consume one token per round, advance the cursor to its end,
and append the EOF token once the cursor reaches the end of input. -/
def Tokenizer.tokenizeGo (lexers : List LexemeFn) (eofTok : Nat) (code : List Nat) :
    Nat → Nat → List (Lex Nat) → List Nat → Option (Except ParseError (List (Lex Nat)))
  | 0, _, _, _ => none
  | fuel + 1, pointer, tokenized_stream, state_stack =>
    match runLexers lexers code pointer tokenized_stream state_stack with
    | none => none
    | some (some lex_data, st) =>
      let pointer' := lex_data.endPos
      let stream' := tokenized_stream ++ [lex_data]
      if pointer' = code.length then
        some (Except.ok (stream' ++ [⟨eofTok, code.length, code.length⟩]))
      else
        Tokenizer.tokenizeGo lexers eofTok code fuel pointer' stream' st
    | some (none, _) => some (Except.error (tokenizeError code pointer))

/-- src/tokenization.rs `Tokenizer::tokenize`. -/
def Tokenizer.tokenize (lexers : List LexemeFn) (eofTok : Nat) (code : List Nat)
    (fuel : Nat) : Option (Except ParseError (List (Lex Nat))) :=
  Tokenizer.tokenizeGo lexers eofTok code fuel 0 [] []

/-- `CombinedTokenizer`'s analyzer lookup
(`analyzers.binary_search_by_key(&state, ..)`); `none` is the Rust
`panic!` on an unknown state. -/
def CombinedTokenizer.lookupAnalyzer (analyzers : List (Nat × List LexemeFn))
    (state : Nat) : Option (List LexemeFn) :=
  match binarySearchByKey analyzers (fun a => a.1) state with
  | Sum.inl i => (analyzers.get? i).map Prod.snd
  | Sum.inr _ => none

/-- Loop of src/tokenization.rs `CombinedTokenizer::tokenize`: as the
single-state loop, but after every accepted token (that does not finish
the input) the active lexeme set is re-resolved from the top of the
state stack (default state when empty) whenever it changed. -/
def CombinedTokenizer.tokenizeGo (analyzers : List (Nat × List LexemeFn))
    (default_state eofTok : Nat) (code : List Nat) :
    Nat → Nat → List (Lex Nat) → List Nat → Nat → List LexemeFn →
    Option (Except ParseError (List (Lex Nat)))
  | 0, _, _, _, _, _ => none
  | fuel + 1, pointer, tokenized_stream, state_stack, current_state, current_analyzer =>
    match runLexers current_analyzer code pointer tokenized_stream state_stack with
    | none => none
    | some (some lex_data, st) =>
      let pointer' := lex_data.endPos
      let stream' := tokenized_stream ++ [lex_data]
      if pointer' = code.length then
        some (Except.ok (stream' ++ [⟨eofTok, code.length, code.length⟩]))
      else
        let latest_state := (st.getLast?).getD default_state
        if latest_state = current_state then
          CombinedTokenizer.tokenizeGo analyzers default_state eofTok code fuel
            pointer' stream' st current_state current_analyzer
        else
          match CombinedTokenizer.lookupAnalyzer analyzers latest_state with
          | some a =>
            CombinedTokenizer.tokenizeGo analyzers default_state eofTok code fuel
              pointer' stream' st latest_state a
          | none => none
    | some (none, _) => some (Except.error (tokenizeError code pointer))

/-- src/tokenization.rs `CombinedTokenizer::tokenize`: resolve the
default state's analyzer, then run the loop. -/
def CombinedTokenizer.tokenize (analyzers : List (Nat × List LexemeFn))
    (default_state eofTok : Nat) (code : List Nat) (fuel : Nat) :
    Option (Except ParseError (List (Lex Nat))) :=
  match CombinedTokenizer.lookupAnalyzer analyzers default_state with
  | some a =>
    CombinedTokenizer.tokenizeGo analyzers default_state eofTok code fuel 0 [] []
      default_state a
  | none => none

/-! ## Error localisation (src/cache.rs `Cache::create_error`)

The `Debug` renderings of the sliced lexeme text and of the token tag
are opaque formatter calls; they are passed in as functions. -/

/-- src/cache.rs `Cache::create_error` for the tokenized driver
(`Cache<FltrPtr, _>`): locate the failed structural token from
`max_parsed_point` (an exact binary-search hit moves one index past it),
build the message, and append the "Failed to parse" suffix.  `debug`
selects the `cfg!(debug_assertions)` message variant. -/
def Cache.create_error {ρ : Type} (c : Cache ρ) (debug : Bool)
    (renderBytes : List Nat → String) (renderTok : Nat → String)
    (code : List Nat) (stream : TokenStream) (eofTok : Nat)
    (err : ProductionError) : ParseError :=
  let pm : Nat × String :=
    match err with
    | .Unparsed =>
      let failed_index :=
        match stream.filtered_index_at c.max_parsed_point with
        | Sum.inl i => i + 1
        | Sum.inr i => i
      match stream.get failed_index with
      | some lex_data =>
        if lex_data.token = eofTok then
          (lex_data.start, "Unexpected end of file.\n")
        else
          let s := (code.drop lex_data.start).take (lex_data.endPos - lex_data.start)
          if debug then
            (lex_data.start,
              "Unexpected token " ++ renderBytes s ++ "(" ++ renderTok lex_data.token
                ++ ").\n")
          else
            (lex_data.start, "Unexpected " ++ renderBytes s ++ ".\n")
      | none => (code.length, "Unexpected end of file.\n")
    | .Validation pointer message => (pointer, message ++ "\n")
  ⟨pm.1,
    pm.2 ++ "Failed to parse at " ++ (Code.obtain_position code pm.1).render ++ ".\n"⟩

/-! ## Statement helpers and concrete fixtures -/

/-- The `discard` flag carried by any `Action`. -/
def Action.discard : Action → Bool
  | .Pop d => d
  | .Append _ d => d
  | .Switch _ d => d
  | .None d => d

/-- Spec-side reading of claim C6: the nearest structural token whose
byte start is AT OR AFTER `pos` (first such token of the ascending
filtered stream). -/
def claimNearestAtOrAfter (ts : TokenStream) (pos : Nat) : Option (Lex Nat) :=
  (ts.filtered_stream.map ts.getRaw).find? fun lex => decide (pos ≤ lex.start)

/-- The filtered index of the first structural token whose byte start is
STRICTLY AFTER `pos` (the stream length when there is none); what
`create_error` actually locates. -/
def firstStrictlyAfter (ts : TokenStream) (pos : Nat) : Nat :=
  ts.filtered_stream.findIdx fun s => decide (pos < (ts.getRaw s).start)

/-- Statement helper: the lexeme contract the engines rely on — an
emitted token starts at the cursor (the code's own
`debug_assert_eq!(pointer, lex_data.start)`), is non-empty (§4.2: no
lexeme accepts the empty input) and does not carry the reserved EOF tag
(the engine alone appends EOF). -/
def LexemeContract (eofTok : Nat) (l : LexemeFn) : Prop :=
  ∀ code pointer stream stack lex st,
    l.consume code pointer stream stack = some (some lex, st) →
    lex.start = pointer ∧ pointer < lex.endPos ∧ lex.token ≠ eofTok

/-- Statement helper: the claimed shape of a successful token stream for
an input of length `L` — a single trailing EOF token spanning `[L, L]`,
every other token non-EOF with `start < endPos`, adjacent tokens
contiguous (`prev.endPos = next.start`), the first token starting at 0,
and byte starts strictly increasing. -/
def TokenStreamInvariant (eofTok L : Nat) (s : List (Lex Nat)) : Prop :=
  (∃ s', s = s' ++ [Lex.mk eofTok L L] ∧
    ∀ t ∈ s', t.token ≠ eofTok ∧ t.start < t.endPos) ∧
  List.Chain' (fun a b => a.endPos = b.start) s ∧
  (∀ h, s.head? = some h → h.start = 0) ∧
  List.Chain' (fun a b => a.start < b.start) s

/-- C2 fixture: a lexeme that always emits the one-byte token
`⟨5, cursor, cursor + 1⟩` (it satisfies the lexeme contract trivially). -/
def c2Lexeme : LexemeFn :=
  ⟨fun _ pointer _ stack => some (some ⟨5, pointer, pointer + 1⟩, stack)⟩

/-- C3 fixture: trie of the one-literal punctuation set `{"a" ↦ 0}`. -/
def c3Punct : FieldTree Nat :=
  (Punctuations.build [([97], 0)]).toOption.getD FieldTree.new

/-- C3 fixture: trie of the one-literal punctuation set `{"a" ↦ 7}`. -/
def c3Punct7 : FieldTree Nat :=
  (Punctuations.build [([97], 7)]).toOption.getD FieldTree.new

/-- C3 fixture: a `StateMixin` that discards the token 0 emitted for
"a" (action `None { discard: true }`, which leaves the stack alone). -/
def c3Mixin : LexemeFn :=
  StateMixin.consume (Punctuations.toLexemeFn c3Punct) [(0, Action.None true)]

/-- C4 fixture: a body production on byte indices that parses exactly at
index 0, consuming one position (cache state `Unit`). -/
def c4Body : ParseStep Nat Nat Unit := fun index c =>
  (if index = 0 then Except.ok ⟨1, []⟩ else Except.error .Unparsed, c)

/-- C4 fixture: a separator production that parses exactly at index 1,
consuming one position. -/
def c4Sep : ParseStep Nat Nat Unit := fun index c =>
  (if index = 1 then Except.ok ⟨2, []⟩ else Except.error .Unparsed, c)

/-- C6/C2 fixture: a fully structural three-token stream
`[⟨tag 1, 0, 1⟩, ⟨tag 2, 1, 2⟩, ⟨tag 0 = EOF, 2, 2⟩]` over the
two-byte input "ab". -/
def c6Stream : TokenStream :=
  TokenStream.fromList (fun _ => true) [⟨1, 0, 1⟩, ⟨2, 1, 2⟩, ⟨0, 2, 2⟩]

/-- C8 fixture: stream with a non-structural token (tag 9) at raw
index 1; the structural raw indices are `[0, 2, 3]`. -/
def c8Stream : TokenStream :=
  TokenStream.fromList (fun t => decide (t ≠ 9))
    [⟨1, 0, 1⟩, ⟨9, 1, 2⟩, ⟨2, 2, 3⟩, ⟨0, 3, 3⟩]

/-! ## Theorems for claim C1 -/

theorem FieldTree.findGo_eq_descent {T : Type} (bytes : List Nat) (t : FieldTree T) (i : Nat) :
    FieldTree.findGo bytes t i =
      (FieldTree.valueAtPath t (bytes.take (FieldTree.descentDepth t bytes))).map
        (fun v => (v, i + FieldTree.descentDepth t bytes)) := by
  induction bytes generalizing t i with
  | nil => simp [FieldTree.findGo, FieldTree.valueAtPath, FieldTree.descentDepth]
  | cons b rest ih =>
    cases hc : FieldTree.lookupChild t.children b with
    | none =>
      simp [FieldTree.findGo, FieldTree.descentDepth, FieldTree.valueAtPath, hc]
    | some child =>
      rw [show FieldTree.findGo (b :: rest) t i = FieldTree.findGo rest child (i + 1) by
            simp [FieldTree.findGo, hc],
          show FieldTree.descentDepth t (b :: rest) =
              FieldTree.descentDepth child rest + 1 by
            simp [FieldTree.descentDepth, hc],
          ih]
      have htake : (b :: rest).take (FieldTree.descentDepth child rest + 1) =
          b :: rest.take (FieldTree.descentDepth child rest) := rfl
      rw [htake,
          show FieldTree.valueAtPath t
              (b :: rest.take (FieldTree.descentDepth child rest)) =
            FieldTree.valueAtPath child (rest.take (FieldTree.descentDepth child rest)) by
            simp [FieldTree.valueAtPath, hc]]
      have : i + 1 + FieldTree.descentDepth child rest =
          i + (FieldTree.descentDepth child rest + 1) := by omega
      rw [this]

/-- C1 (amended). The `Punctuations` lexeme, via the field trie's greedy
`find`, returns the value stored at the node reached by the maximal
greedy descent from the cursor (the longest prefix of the remaining
input that is a path in the trie), spanning exactly the descent length;
it returns no token when that node holds no value — it does not fall
back to a shorter literal's value. -/
theorem punctuations_consume_greedy_descent {T : Type} (tree : FieldTree T)
    (code : List Nat) (pointer : Nat) :
    Punctuations.consume tree code pointer =
      (FieldTree.valueAtPath tree
          ((code.drop pointer).take (FieldTree.descentDepth tree (code.drop pointer)))).map
        (fun v => Lex.mk v pointer
          (pointer + FieldTree.descentDepth tree (code.drop pointer))) := by
  unfold Punctuations.consume FieldTree.find
  rw [FieldTree.findGo_eq_descent]
  cases FieldTree.valueAtPath tree
      ((code.drop pointer).take (FieldTree.descentDepth tree (code.drop pointer))) with
  | none => rfl
  | some v => simp

/-- C1 (counterexample). On input "ab" the set `{"a" ↦ 1, "abc" ↦ 2}`
builds fine and "a" is the longest literal of the set that is a prefix
of the input (value 1, length 1), yet `consume` returns no token at all
(the greedy descent follows "ab" along the "abc" key, stalls at a
valueless node, and does not back-track to the shorter literal), instead
of the `some ⟨1, 0, 1⟩` the claim requires. -/
theorem punctuations_shorter_literal_dropped_cex :
    (Punctuations.build c1Fields).toOption.isSome = true ∧
    ([97], 1) ∈ c1Fields ∧ leadsList [97] [97, 98] ∧
    (∀ p ∈ c1Fields, leadsList p.1 [97, 98] → p.1.length ≤ 1) ∧
    Punctuations.consume c1Tree [97, 98] 0 = none ∧
    Punctuations.consume c1Tree [97, 98] 0 ≠ some ⟨1, 0, 1⟩ := by
  refine ⟨by decide, by decide, by decide, by decide, by decide, by decide⟩

/-! ## Theorems for claim C5 -/

/-- C5. The Packrat cache starts with `max_parsed_point = 0`, the
pointer never decreases under any sequence of `find`/`insert`/
`update_index` operations (`insert` and `update_index` each raise it to
the max of itself and the given position), and `find` returns the
memoized entry iff one is stored for the key pair and its position is at
most `max_parsed_point`. -/
theorem cache_monotone_find_iff (ρ : Type) :
    (Cache.root ρ).max_parsed_point = 0 ∧
    (∀ (c : Cache ρ) (ops : List (CacheOp ρ)),
      c.max_parsed_point ≤ (c.applyOps ops).max_parsed_point) ∧
    (∀ (c : Cache ρ) (key index : Nat) (r : ρ),
      c.find key index = some r ↔
        c.parsed_result_cache.lookup (key, index) = some r ∧
          index ≤ c.max_parsed_point) ∧
    (∀ (c : Cache ρ) (key index : Nat) (r : ρ),
      (c.insert key index r).max_parsed_point = max c.max_parsed_point index) ∧
    (∀ (c : Cache ρ) (index : Nat),
      (c.update_index index).max_parsed_point = max c.max_parsed_point index) := by
  refine ⟨rfl, ?_, ?_, ?_, ?_⟩
  · intro c ops
    induction ops generalizing c with
    | nil => exact Nat.le_refl _
    | cons op rest ih =>
      refine Nat.le_trans ?_ (ih (op.apply c))
      cases op with
      | find _ _ => exact Nat.le_refl _
      | insert key index r => exact Nat.le_max_right _ _
      | update_index index =>
        show c.max_parsed_point ≤ (c.update_index index).max_parsed_point
        unfold Cache.update_index
        split
        · next h =>
            show c.max_parsed_point ≤ index
            omega
        · exact Nat.le_refl _
  · intro c key index r
    unfold Cache.find
    split <;> simp_all
  · intro c key index r
    simp [Cache.insert, Nat.max_comm]
  · intro c index
    unfold Cache.update_index
    split
    · next h =>
        show index = max c.max_parsed_point index
        omega
    · next h =>
        show c.max_parsed_point = max c.max_parsed_point index
        omega

/-! ## Theorems for claim C7 -/

/-- C7. For every production entry point (filtered-token, raw-token and
byte driven alike): `Hidden(p)` succeeds exactly when `p` does, with the
same consumed index, the same final cache and an empty children list; on
failure it returns `p`'s error unchanged; and `Node(p, None)` is
extensionally the same function as `Hidden(p)`. -/
theorem hidden_node_consumption {ν σ : Type} (pf pt : TokenParseStep ν σ)
    (pb : ParseStep Nat ν σ) (code : List Nat) (index : Nat) (ts : TokenStream)
    (cache cb : σ) :
    (∀ d c', pf code index ts cache = (Except.ok d, c') →
      Hidden.advance pf code index ts cache =
        (Except.ok ⟨d.consumed_index, []⟩, c')) ∧
    (∀ e c', pf code index ts cache = (Except.error e, c') →
      Hidden.advance pf code index ts cache = (Except.error e, c')) ∧
    Node.eat_fltr_ptr none pf code index ts cache =
      Hidden.advance pf code index ts cache ∧
    Node.eat_token_ptr none pt code index ts cache =
      Hidden.advance pt code index ts cache ∧
    (∀ d c', pb index cb = (Except.ok d, c') →
      Hidden.advance_ptr pb index cb = (Except.ok ⟨d.consumed_index, []⟩, c')) ∧
    (∀ e c', pb index cb = (Except.error e, c') →
      Hidden.advance_ptr pb index cb = (Except.error e, c')) ∧
    Node.eat_ptr none pb index cb = Hidden.advance_ptr pb index cb := by
  refine ⟨?_, ?_, ?_, ?_, ?_, ?_, ?_⟩
  · intro d c' h
    simp [Hidden.advance, h, Except.map, SuccessData.hidden]
  · intro e c' h
    simp [Hidden.advance, h, Except.map]
  · simp only [Node.eat_fltr_ptr, Hidden.advance]
  · simp only [Node.eat_token_ptr, Hidden.advance]
  · intro d c' h
    simp [Hidden.advance_ptr, h, Except.map, SuccessData.hidden]
  · intro e c' h
    simp [Hidden.advance_ptr, h, Except.map]
  · simp only [Node.eat_ptr, Hidden.advance_ptr]

/-- C7 witness: the equivalences evaluated on one concrete production in
each driver mode. -/
theorem hidden_node_consumption_witness :
    Hidden.advance (ν := Nat) (σ := Unit)
        (fun _ _ _ c => (Except.ok ⟨4, [ASTNode.new 0 1 2 none []]⟩, c))
        [] 1 c6Stream () = (Except.ok ⟨4, []⟩, ()) ∧
    Hidden.advance_ptr (ν := Nat) (σ := Unit)
        (fun _ c => (Except.error .Unparsed, c)) 1 () =
      (Except.error .Unparsed, ()) := by
  exact ⟨(hidden_node_consumption
      (fun _ _ _ c => (Except.ok ⟨4, [ASTNode.new 0 1 2 none []]⟩, c))
      (fun _ _ _ c => (Except.ok ⟨4, []⟩, c))
      (fun _ c => (Except.error .Unparsed, c)) [] 1 c6Stream () ()).1
      ⟨4, [ASTNode.new 0 1 2 none []]⟩ () rfl,
    (hidden_node_consumption
      (fun _ _ _ c => (Except.ok ⟨4, [ASTNode.new 0 1 2 none []]⟩, c))
      (fun _ _ _ c => (Except.ok ⟨4, []⟩, c))
      (fun _ c => (Except.error .Unparsed, c)) [] 1 c6Stream () ()).2.2.2.2.2.1
      .Unparsed () rfl⟩

/-! ## Theorems for claim C9 -/

/-- C9. A `Mapper` forwards the inner lexeme's panic and its "no token"
outcome unchanged, and rewrites an emitted token's tag exactly when the
token's byte slice is a key of the map, never touching the span: the
mapped token keeps `start` and `endPos`, and its tag is the mapped value
on a hit and the inner tag otherwise. -/
theorem mapper_preserves_span (inner : LexemeFn) (fields : List (List Nat × Nat))
    (code : List Nat) (pointer : Nat) (stream : List (Lex Nat)) (stack : List Nat) :
    (inner.consume code pointer stream stack = none →
      (Mapper.consume inner fields).consume code pointer stream stack = none) ∧
    (∀ st, inner.consume code pointer stream stack = some (none, st) →
      (Mapper.consume inner fields).consume code pointer stream stack =
        some (none, st)) ∧
    (∀ lex st, inner.consume code pointer stream stack = some (some lex, st) →
      (Mapper.consume inner fields).consume code pointer stream stack =
        some (some
          { lex with token :=
              (fields.lookup
                ((code.drop lex.start).take (lex.endPos - lex.start))).getD lex.token },
          st)) := by
  refine ⟨?_, ?_, ?_⟩
  · intro h
    simp [Mapper.consume, h]
  · intro st h
    simp [Mapper.consume, h]
  · intro lex st h
    simp only [Mapper.consume, h, Option.map_some]
    cases hl : (fields.lookup ((code.drop lex.start).take (lex.endPos - lex.start))) with
    | none => simp [hl]
    | some t => simp [hl]

/-- C9 witness: a mapper over the identifier-like inner lexeme that
emits `⟨5, 0, 2⟩` on "ab", with the map `{"ab" ↦ 8}`: the tag is
rewritten to 8, the span `[0, 2)` is untouched. -/
theorem mapper_preserves_span_witness :
    (Mapper.consume ⟨fun _ _ _ st => some (some ⟨5, 0, 2⟩, st)⟩
        [([97, 98], 8)]).consume [97, 98] 0 [] [] =
      some (some ⟨8, 0, 2⟩, []) := by
  have := (mapper_preserves_span ⟨fun _ _ _ st => some (some ⟨5, 0, 2⟩, st)⟩
    [([97, 98], 8)] [97, 98] 0 [] []).2.2 ⟨5, 0, 2⟩ [] rfl
  simpa using this

/-! ## Theorems for claim C4 -/

/-- C4 (amended). When the separator parses successfully and the
following body parse fails with a soft `Unparsed` error: with
`inclusive = false` the `SeparatedList` still SUCCEEDS, at the position
reached before the separator and without the separator's children (the
trailing separator is left unconsumed); with `inclusive = true` it
succeeds keeping the trailing separator's children and the position
after the separator. -/
theorem separated_list_trailing_separator {ι ν σ : Type} (pp ps : ParseStep ι ν σ)
    (fuel : Nat) (index : ι) (c0 c1 c2 c3 : σ) (d sd : SuccessData ι ν)
    (hbody : pp index c0 = (Except.ok d, c1))
    (hsep : ps d.consumed_index c1 = (Except.ok sd, c2))
    (hfail : pp sd.consumed_index c2 = (Except.error .Unparsed, c3)) :
    SeparatedList.consume false pp ps (fuel + 1) index c0 =
      some (Except.ok ⟨d.consumed_index, d.children⟩, c3) ∧
    SeparatedList.consume true pp ps (fuel + 1) index c0 =
      some (Except.ok ⟨sd.consumed_index, d.children ++ sd.children⟩, c3) := by
  constructor <;>
    simp [SeparatedList.consume, SeparatedList.consumeGo, hbody, hsep, hfail,
      ProductionError.is_invalid]

/-- C4 witness: the amended behaviour evaluated on the concrete body
(accepting only index 0) and separator (accepting only index 1): on
"body, body-fails" the non-inclusive list succeeds at index 1 with no
children, the inclusive one at index 2. -/
theorem separated_list_trailing_separator_witness :
    SeparatedList.consume false c4Body c4Sep 5 0 () =
      some (Except.ok ⟨1, []⟩, ()) ∧
    SeparatedList.consume true c4Body c4Sep 5 0 () =
      some (Except.ok ⟨2, []⟩, ()) := by
  have h := separated_list_trailing_separator c4Body c4Sep 4 0 () () () ()
    ⟨1, []⟩ ⟨2, []⟩ rfl rfl rfl
  exact ⟨h.1, h.2⟩

/-- C4 (counterexample). With `inclusive = false`, body accepted at 0,
separator accepted at 1, body soft-failing at 2: the claim requires the
`SeparatedList` parse to FAIL, but it returns `Ok` at index 1. -/
theorem separated_list_exclusive_no_fail_cex :
    c4Sep 1 () = (Except.ok ⟨2, []⟩, ()) ∧
    c4Body 2 () = (Except.error .Unparsed, ()) ∧
    SeparatedList.consume false c4Body c4Sep 5 0 () =
      some (Except.ok ⟨1, []⟩, ()) ∧
    (∀ e c, SeparatedList.consume false c4Body c4Sep 5 0 () ≠
      some (Except.error e, c)) := by
  refine ⟨rfl, rfl, rfl, ?_⟩
  intro e c h
  rw [show SeparatedList.consume false c4Body c4Sep 5 0 () =
    some (Except.ok ⟨1, []⟩, ()) from rfl] at h
  simp at h

/-! ## Theorems for claim C3 -/

/-- C3 (amended). When a `StateMixin`'s inner lexeme emits a token whose
looked-up action has `discard = true` (and the action does not panic),
the mixin's `consume` applies the action to the state stack and returns
NO token; in the engine's `find_map` this means the remaining lexemes
are tried at the SAME cursor with the updated stack — the cursor only
advances if one of them emits a token. -/
theorem state_mixin_discard_retries_at_cursor (inner : LexemeFn)
    (actions : List (Nat × Action)) (rest : List LexemeFn) (code : List Nat)
    (pointer : Nat) (stream : List (Lex Nat)) (stack st st' : List Nat)
    (lex : Lex Nat) (i : Nat) (a : Nat × Action) (res : Option (Lex Nat))
    (h1 : inner.consume code pointer stream stack = some (some lex, st))
    (h2 : binarySearchByKey actions (fun x => x.1) lex.token = Sum.inl i)
    (h3 : actions.get? i = some a)
    (h4 : a.2.discard = true)
    (h5 : perform_state_action lex a.2 st = some (res, st')) :
    res = none ∧
    (StateMixin.consume inner actions).consume code pointer stream stack =
      some (none, st') ∧
    runLexers (StateMixin.consume inner actions :: rest) code pointer stream stack =
      runLexers rest code pointer stream st' := by
  have hres : res = none := by
    cases ha : a.2 with
    | Pop dd =>
      rw [ha] at h4 h5
      simp only [Action.discard] at h4
      subst h4
      unfold perform_state_action at h5
      cases hL : st.getLast? with
      | none => rw [hL] at h5; simp at h5
      | some s => rw [hL] at h5; simp at h5; exact h5.1.symm
    | Append s dd =>
      rw [ha] at h4 h5
      simp only [Action.discard] at h4
      subst h4
      unfold perform_state_action at h5
      simp at h5; exact h5.1.symm
    | Switch s dd =>
      rw [ha] at h4 h5
      simp only [Action.discard] at h4
      subst h4
      unfold perform_state_action at h5
      simp at h5; exact h5.1.symm
    | None dd =>
      rw [ha] at h4 h5
      simp only [Action.discard] at h4
      subst h4
      unfold perform_state_action at h5
      simp at h5; exact h5.1.symm
  subst hres
  have hmix : (StateMixin.consume inner actions).consume code pointer stream stack =
      some (none, st') := by
    simp only [StateMixin.consume, h1, h2, h3]
    exact h5
  refine ⟨rfl, hmix, ?_⟩
  simp only [runLexers, hmix]

/-- C3 witness: the amended behaviour on the concrete discarding mixin
over the set `{"a" ↦ 0}` at cursor 0 of input "a". -/
theorem state_mixin_discard_retries_at_cursor_witness :
    (StateMixin.consume (Punctuations.toLexemeFn c3Punct)
        [(0, Action.None true)]).consume [97] 0 [] [] = some (none, []) ∧
    runLexers [StateMixin.consume (Punctuations.toLexemeFn c3Punct)
        [(0, Action.None true)], Punctuations.toLexemeFn c3Punct7] [97] 0 [] [] =
      runLexers [Punctuations.toLexemeFn c3Punct7] [97] 0 [] [] := by
  have h := state_mixin_discard_retries_at_cursor (Punctuations.toLexemeFn c3Punct)
    [(0, Action.None true)] [Punctuations.toLexemeFn c3Punct7] [97] 0 [] [] [] []
    ⟨0, 0, 1⟩ 0 (0, Action.None true) none rfl rfl rfl rfl rfl
  exact ⟨h.2.1, h.2.2⟩

/-- C3 (counterexample). The discarding mixin over `{"a" ↦ 0}` is the
only lexeme of a `Tokenizer` run on input "a": the inner lexeme emits
`⟨0, 0, 1⟩`, the token is discarded — and tokenization FAILS at cursor 0
instead of advancing past byte 1 (which would have produced the
one-token EOF stream `[⟨99, 1, 1⟩]`).  With a second lexeme added after
the mixin, that lexeme is retried at the SAME cursor 0 and its token is
the one emitted. -/
theorem state_mixin_discard_cursor_cex :
    Punctuations.consume c3Punct [97] 0 = some ⟨0, 0, 1⟩ ∧
    Tokenizer.tokenize [c3Mixin] 99 [97] 5 =
      some (Except.error (tokenizeError [97] 0)) ∧
    Tokenizer.tokenize [c3Mixin] 99 [97] 5 ≠ some (Except.ok [Lex.mk 99 1 1]) ∧
    Tokenizer.tokenize [c3Mixin, Punctuations.toLexemeFn c3Punct7] 99 [97] 5 =
      some (Except.ok [Lex.mk 7 0 1, Lex.mk 99 1 1]) := by
  refine ⟨rfl, rfl, ?_, rfl⟩
  intro h
  rw [show Tokenizer.tokenize [c3Mixin] 99 [97] 5 =
    some (Except.error (tokenizeError [97] 0)) from rfl] at h
  simp at h

/-! ## Theorems for claim C8 -/

/-- C8. `filteredIndexAt` returns the two-arm result the claim states
(`Ok` exactly on a byte-start hit, `Err` with the insertion point on a
miss), but `findFilterPtr` does NOT: both arms of its binary search are
wrapped in `Ok`, so looking up raw index 1 (a non-structural token, no
exact match in `[0, 2, 3]`) yields `Ok 1` where the claim — and the
`Err`-arm of the caller in structural.rs, and the sibling
`find_filtered_index` — expect `Err 1`. -/
theorem find_filter_ptr_err_arm_bug :
    c8Stream.filtered_stream = [0, 2, 3] ∧
    (∀ j ∈ c8Stream.filtered_stream, j ≠ 1) ∧
    c8Stream.find_filter_ptr 1 = Sum.inl 1 ∧
    c8Stream.find_filtered_index 1 = Sum.inr 1 ∧
    c8Stream.find_filter_ptr 2 = Sum.inl 1 ∧
    c8Stream.filtered_index_at 2 = Sum.inl 1 ∧
    c8Stream.filtered_index_at 1 = Sum.inr 1 ∧
    c8Stream.filtered_index_at 0 = Sum.inl 0 := by
  refine ⟨by decide, by decide, by decide, by decide, by decide, by decide,
    by decide, by decide⟩

/-! ## Theorems for claim C10 -/

/-- Any `Ok` stream of the single-state loop extends the accumulated
stream by at least the final consumed token and the appended EOF. -/
theorem tokenizeGo_ok_length (lexers : List LexemeFn) (eofTok : Nat)
    (code : List Nat) :
    ∀ fuel pointer stream stack out,
      Tokenizer.tokenizeGo lexers eofTok code fuel pointer stream stack =
        some (Except.ok out) →
      stream.length + 2 ≤ out.length := by
  intro fuel
  induction fuel with
  | zero => intro pointer stream stack out h; simp [Tokenizer.tokenizeGo] at h
  | succ f ih =>
    intro pointer stream stack out h
    simp only [Tokenizer.tokenizeGo] at h
    cases hr : runLexers lexers code pointer stream stack with
    | none => rw [hr] at h; simp at h
    | some pr =>
      rw [hr] at h
      obtain ⟨r, st⟩ := pr
      cases r with
      | none => simp at h
      | some lex =>
        simp only at h
        by_cases hp : lex.endPos = code.length
        · rw [if_pos hp] at h
          have := h
          simp only [Option.some.injEq, Except.ok.injEq] at this
          subst this
          simp
        · rw [if_neg hp] at h
          have := ih lex.endPos (stream ++ [lex]) st out h
          simp at this
          omega

/-- Any `Ok` stream of the multi-state loop likewise has at least two
more tokens than the accumulated stream. -/
theorem combinedTokenizeGo_ok_length (analyzers : List (Nat × List LexemeFn))
    (default_state eofTok : Nat) (code : List Nat) :
    ∀ fuel pointer stream stack current_state current_analyzer out,
      CombinedTokenizer.tokenizeGo analyzers default_state eofTok code fuel pointer
        stream stack current_state current_analyzer = some (Except.ok out) →
      stream.length + 2 ≤ out.length := by
  intro fuel
  induction fuel with
  | zero =>
    intro pointer stream stack cs ca out h
    simp [CombinedTokenizer.tokenizeGo] at h
  | succ f ih =>
    intro pointer stream stack cs ca out h
    simp only [CombinedTokenizer.tokenizeGo] at h
    cases hr : runLexers ca code pointer stream stack with
    | none => rw [hr] at h; simp at h
    | some pr =>
      rw [hr] at h
      obtain ⟨r, st⟩ := pr
      cases r with
      | none => simp at h
      | some lex =>
        simp only at h
        by_cases hp : lex.endPos = code.length
        · rw [if_pos hp] at h
          have := h
          simp only [Option.some.injEq, Except.ok.injEq] at this
          subst this
          simp
        · rw [if_neg hp] at h
          by_cases hs : (st.getLast?).getD default_state = cs
          · rw [if_pos hs] at h
            have := ih lex.endPos (stream ++ [lex]) st cs ca out h
            simp at this
            omega
          · rw [if_neg hs] at h
            cases hl : CombinedTokenizer.lookupAnalyzer analyzers
                ((st.getLast?).getD default_state) with
            | none => rw [hl] at h; simp at h
            | some a =>
              rw [hl] at h
              have := ih lex.endPos (stream ++ [lex]) st
                ((st.getLast?).getD default_state) a out h
              simp at this
              omega

/-- C10. Tokenizing the empty input never yields the one-element stream
holding only the EOF token, in either engine: every `Ok` stream has at
least two tokens (the EOF is appended only after some lexeme emitted a
token reaching end-of-input); when no lexeme emits a token at position 0
of the empty input the result is the "Failed to tokenize" `ParseError`
at position 0; and when one does (necessarily with `endPos = 0`), the
`Ok` stream is that token followed by EOF. -/
theorem tokenize_empty_never_lone_eof (lexers : List LexemeFn)
    (analyzers : List (Nat × List LexemeFn)) (default_state eofTok fuel : Nat) :
    (∀ s, Tokenizer.tokenize lexers eofTok [] fuel = some (Except.ok s) →
      2 ≤ s.length ∧ s ≠ [Lex.mk eofTok 0 0]) ∧
    (∀ st, runLexers lexers [] 0 [] [] = some (none, st) → 0 < fuel →
      Tokenizer.tokenize lexers eofTok [] fuel =
        some (Except.error (tokenizeError [] 0))) ∧
    (∀ lex st, runLexers lexers [] 0 [] [] = some (some lex, st) →
      lex.endPos = 0 → 0 < fuel →
      Tokenizer.tokenize lexers eofTok [] fuel =
        some (Except.ok [lex, Lex.mk eofTok 0 0])) ∧
    (∀ s, CombinedTokenizer.tokenize analyzers default_state eofTok [] fuel =
      some (Except.ok s) → 2 ≤ s.length ∧ s ≠ [Lex.mk eofTok 0 0]) ∧
    (∀ a st, CombinedTokenizer.lookupAnalyzer analyzers default_state = some a →
      runLexers a [] 0 [] [] = some (none, st) → 0 < fuel →
      CombinedTokenizer.tokenize analyzers default_state eofTok [] fuel =
        some (Except.error (tokenizeError [] 0))) := by
  refine ⟨?_, ?_, ?_, ?_, ?_⟩
  · intro s h
    have := tokenizeGo_ok_length lexers eofTok [] fuel 0 [] [] s h
    simp at this
    constructor
    · omega
    · intro hs
      subst hs
      simp at this
  · intro st h hf
    obtain ⟨f, rfl⟩ : ∃ f, fuel = f + 1 := ⟨fuel - 1, by omega⟩
    simp only [Tokenizer.tokenize, Tokenizer.tokenizeGo, h]
  · intro lex st h hend hf
    obtain ⟨f, rfl⟩ : ∃ f, fuel = f + 1 := ⟨fuel - 1, by omega⟩
    simp only [Tokenizer.tokenize, Tokenizer.tokenizeGo, h]
    rw [if_pos (by simpa using hend)]
    simp [hend]
  · intro s h
    unfold CombinedTokenizer.tokenize at h
    cases hl : CombinedTokenizer.lookupAnalyzer analyzers default_state with
    | none => rw [hl] at h; simp at h
    | some a =>
      rw [hl] at h
      have := combinedTokenizeGo_ok_length analyzers default_state eofTok [] fuel
        0 [] [] default_state a s h
      simp at this
      constructor
      · omega
      · intro hs
        subst hs
        simp at this
  · intro a st hl h hf
    obtain ⟨f, rfl⟩ : ∃ f, fuel = f + 1 := ⟨fuel - 1, by omega⟩
    simp only [CombinedTokenizer.tokenize, hl, CombinedTokenizer.tokenizeGo, h]

/-! ## Theorems for claim C2 -/

/-- A token handed out by the engines' `find_map` over contract-abiding
lexemes starts at the cursor, is non-empty and is not EOF-tagged. -/
theorem runLexers_contract {eofTok : Nat} {lexers : List LexemeFn}
    (hc : ∀ l ∈ lexers, LexemeContract eofTok l) (code : List Nat) (pointer : Nat)
    (stream : List (Lex Nat)) :
    ∀ stack lex st, runLexers lexers code pointer stream stack = some (some lex, st) →
      lex.start = pointer ∧ pointer < lex.endPos ∧ lex.token ≠ eofTok := by
  induction lexers with
  | nil => intro stack lex st h; simp [runLexers] at h
  | cons l rest ih =>
    intro stack lex st h
    simp only [runLexers] at h
    cases hl : l.consume code pointer stream stack with
    | none => rw [hl] at h; simp at h
    | some pr =>
      rw [hl] at h
      obtain ⟨r, st'⟩ := pr
      cases r with
      | some lx =>
        simp only [Option.some.injEq, Prod.mk.injEq] at h
        obtain ⟨rfl, rfl⟩ := h
        exact hc l (by simp) code pointer stream stack _ _ hl
      | none =>
        exact ih (fun x hx => hc x (by simp [hx])) st' lex st h

/-- A successful analyzer lookup yields one of the analyzers' lexeme
lists, so it inherits the contract hypothesis. -/
theorem lookupAnalyzer_contract {eofTok : Nat} {analyzers : List (Nat × List LexemeFn)}
    (hc : ∀ p ∈ analyzers, ∀ l ∈ p.2, LexemeContract eofTok l) (state : Nat)
    {a : List LexemeFn}
    (hl : CombinedTokenizer.lookupAnalyzer analyzers state = some a) :
    ∀ l ∈ a, LexemeContract eofTok l := by
  unfold CombinedTokenizer.lookupAnalyzer at hl
  cases hb : binarySearchByKey analyzers (fun x => x.1) state with
  | inl i =>
    rw [hb] at hl
    simp only at hl
    cases hg : analyzers.get? i with
    | none => rw [hg] at hl; simp at hl
    | some p =>
      rw [hg] at hl
      simp only [Option.map_some', Option.some.injEq] at hl
      subst hl
      exact hc p (List.get?_mem hg)
  | inr i => rw [hb] at hl; simp at hl

/-- An exact token chain with non-empty tokens has strictly increasing
byte starts. -/
theorem chain_lt_of_adj :
    ∀ s : List (Lex Nat),
      List.Chain' (fun a b => a.endPos = b.start) s →
      (∀ t ∈ s.dropLast, t.start < t.endPos) →
      List.Chain' (fun a b => a.start < b.start) s := by
  intro s
  induction s with
  | nil => intro _ _; simp
  | cons a t ih =>
    intro hadj hlt
    cases t with
    | nil => simp
    | cons b t' =>
      rw [List.chain'_cons] at hadj ⊢
      obtain ⟨hab, hrest⟩ := hadj
      have ha : a.start < a.endPos := by
        apply hlt
        rw [List.dropLast_cons₂]
        exact List.mem_cons_self a _
      refine ⟨by omega, ih hrest ?_⟩
      intro u hu
      apply hlt
      rw [List.dropLast_cons₂]
      exact List.mem_cons_of_mem a hu

/-- Loop invariant of the single-state engine: starting from a stream
whose tokens are non-EOF, non-empty, contiguous, 0-anchored and ending
at the cursor, any `Ok` result appends further such tokens and one final
EOF spanning the input length. -/
theorem tokenizeGo_stream_invariant (lexers : List LexemeFn) (eofTok : Nat)
    (code : List Nat) (hc : ∀ l ∈ lexers, LexemeContract eofTok l) :
    ∀ fuel pointer stream stack out,
      Tokenizer.tokenizeGo lexers eofTok code fuel pointer stream stack =
        some (Except.ok out) →
      (∀ t ∈ stream, t.token ≠ eofTok ∧ t.start < t.endPos) →
      List.Chain' (fun a b => a.endPos = b.start) stream →
      (∀ hd, stream.head? = some hd → hd.start = 0) →
      (stream = [] → pointer = 0) →
      (∀ t, stream.getLast? = some t → t.endPos = pointer) →
      (∃ s', out = s' ++ [Lex.mk eofTok code.length code.length] ∧
        ∀ t ∈ s', t.token ≠ eofTok ∧ t.start < t.endPos) ∧
      List.Chain' (fun a b => a.endPos = b.start) out ∧
      (∀ hd, out.head? = some hd → hd.start = 0) := by
  intro fuel
  induction fuel with
  | zero =>
    intro pointer stream stack out h
    simp [Tokenizer.tokenizeGo] at h
  | succ f ih =>
    intro pointer stream stack out h hmem hchain hhead hnil hlast
    simp only [Tokenizer.tokenizeGo] at h
    cases hr : runLexers lexers code pointer stream stack with
    | none => rw [hr] at h; simp at h
    | some pr =>
      rw [hr] at h
      obtain ⟨r, st⟩ := pr
      cases r with
      | none => simp at h
      | some lex =>
        simp only at h
        obtain ⟨hstart, hlt, htok⟩ :=
          runLexers_contract hc code pointer stream stack lex st hr
        have hmem' : ∀ t ∈ stream ++ [lex], t.token ≠ eofTok ∧ t.start < t.endPos := by
          intro t ht
          rcases List.mem_append.mp ht with h1 | h1
          · exact hmem t h1
          · simp at h1
            subst h1
            exact ⟨htok, by omega⟩
        have hchain' : List.Chain' (fun a b => a.endPos = b.start) (stream ++ [lex]) := by
          rw [List.chain'_append]
          refine ⟨hchain, by simp, ?_⟩
          intro x hx y hy
          simp only [List.head?_cons, Option.mem_def, Option.some.injEq] at hy
          subst hy
          rw [hstart]
          exact hlast x (Option.mem_def.mp hx)
        have hhead' : ∀ hd, (stream ++ [lex]).head? = some hd → hd.start = 0 := by
          intro hd hhd
          cases stream with
          | nil =>
            simp at hhd
            subst hhd
            rw [hstart]
            exact hnil rfl
          | cons s0 srest =>
            simp at hhd
            exact hhead hd (by simpa using hhd)
        by_cases hp : lex.endPos = code.length
        · rw [if_pos hp] at h
          simp only [Option.some.injEq, Except.ok.injEq] at h
          subst h
          refine ⟨⟨stream ++ [lex], by simp, hmem'⟩, ?_, ?_⟩
          · rw [List.chain'_append]
            refine ⟨hchain', by simp, ?_⟩
            intro x hx y hy
            simp only [List.head?_cons, Option.mem_def, Option.some.injEq] at hy
            subst hy
            have : x = lex := by
              have := List.getLast?_concat stream (a := lex)
              rw [Option.mem_def] at hx
              rw [this] at hx
              exact (Option.some.injEq _ _ ▸ hx).symm ▸ rfl
            subst this
            simpa using hp
          · intro hd hhd
            apply hhead'
            cases stream with
            | nil => simpa using hhd
            | cons s0 srest => simpa using hhd
        · rw [if_neg hp] at h
          refine ih lex.endPos (stream ++ [lex]) st out h hmem' hchain' hhead' ?_ ?_
          · intro habs
            simp at habs
          · intro t ht
            rw [List.getLast?_concat] at ht
            simp at ht
            subst ht
            rfl

/-- Loop invariant of the multi-state engine (same statement, with the
analyzer bookkeeping threaded through). -/
theorem combinedTokenizeGo_stream_invariant (analyzers : List (Nat × List LexemeFn))
    (default_state eofTok : Nat) (code : List Nat)
    (hc : ∀ p ∈ analyzers, ∀ l ∈ p.2, LexemeContract eofTok l) :
    ∀ fuel pointer stream stack current_state current_analyzer out,
      (∀ l ∈ current_analyzer, LexemeContract eofTok l) →
      CombinedTokenizer.tokenizeGo analyzers default_state eofTok code fuel pointer
        stream stack current_state current_analyzer = some (Except.ok out) →
      (∀ t ∈ stream, t.token ≠ eofTok ∧ t.start < t.endPos) →
      List.Chain' (fun a b => a.endPos = b.start) stream →
      (∀ hd, stream.head? = some hd → hd.start = 0) →
      (stream = [] → pointer = 0) →
      (∀ t, stream.getLast? = some t → t.endPos = pointer) →
      (∃ s', out = s' ++ [Lex.mk eofTok code.length code.length] ∧
        ∀ t ∈ s', t.token ≠ eofTok ∧ t.start < t.endPos) ∧
      List.Chain' (fun a b => a.endPos = b.start) out ∧
      (∀ hd, out.head? = some hd → hd.start = 0) := by
  intro fuel
  induction fuel with
  | zero =>
    intro pointer stream stack cs ca out hca h
    simp [CombinedTokenizer.tokenizeGo] at h
  | succ f ih =>
    intro pointer stream stack cs ca out hca h hmem hchain hhead hnil hlast
    simp only [CombinedTokenizer.tokenizeGo] at h
    cases hr : runLexers ca code pointer stream stack with
    | none => rw [hr] at h; simp at h
    | some pr =>
      rw [hr] at h
      obtain ⟨r, st⟩ := pr
      cases r with
      | none => simp at h
      | some lex =>
        simp only at h
        obtain ⟨hstart, hlt, htok⟩ :=
          runLexers_contract hca code pointer stream stack lex st hr
        have hmem' : ∀ t ∈ stream ++ [lex], t.token ≠ eofTok ∧ t.start < t.endPos := by
          intro t ht
          rcases List.mem_append.mp ht with h1 | h1
          · exact hmem t h1
          · simp at h1
            subst h1
            exact ⟨htok, by omega⟩
        have hchain' : List.Chain' (fun a b => a.endPos = b.start) (stream ++ [lex]) := by
          rw [List.chain'_append]
          refine ⟨hchain, by simp, ?_⟩
          intro x hx y hy
          simp only [List.head?_cons, Option.mem_def, Option.some.injEq] at hy
          subst hy
          rw [hstart]
          exact hlast x (Option.mem_def.mp hx)
        have hhead' : ∀ hd, (stream ++ [lex]).head? = some hd → hd.start = 0 := by
          intro hd hhd
          cases stream with
          | nil =>
            simp at hhd
            subst hhd
            rw [hstart]
            exact hnil rfl
          | cons s0 srest =>
            simp at hhd
            exact hhead hd (by simpa using hhd)
        have hnil' : stream ++ [lex] = [] → lex.endPos = 0 := by
          intro habs
          simp at habs
        have hlast' : ∀ t, (stream ++ [lex]).getLast? = some t → t.endPos = lex.endPos := by
          intro t ht
          rw [List.getLast?_concat] at ht
          simp at ht
          subst ht
          rfl
        by_cases hp : lex.endPos = code.length
        · rw [if_pos hp] at h
          simp only [Option.some.injEq, Except.ok.injEq] at h
          subst h
          refine ⟨⟨stream ++ [lex], by simp, hmem'⟩, ?_, ?_⟩
          · rw [List.chain'_append]
            refine ⟨hchain', by simp, ?_⟩
            intro x hx y hy
            simp only [List.head?_cons, Option.mem_def, Option.some.injEq] at hy
            subst hy
            have : x = lex := by
              have hgc := List.getLast?_concat stream (a := lex)
              rw [Option.mem_def] at hx
              rw [hgc] at hx
              exact (Option.some.injEq _ _ ▸ hx).symm ▸ rfl
            subst this
            simpa using hp
          · intro hd hhd
            apply hhead'
            cases stream with
            | nil => simpa using hhd
            | cons s0 srest => simpa using hhd
        · rw [if_neg hp] at h
          by_cases hs : (st.getLast?).getD default_state = cs
          · rw [if_pos hs] at h
            exact ih lex.endPos (stream ++ [lex]) st cs ca out hca h hmem' hchain'
              hhead' hnil' hlast'
          · rw [if_neg hs] at h
            cases hl : CombinedTokenizer.lookupAnalyzer analyzers
                ((st.getLast?).getD default_state) with
            | none => rw [hl] at h; simp at h
            | some a =>
              rw [hl] at h
              have hamem : ∀ l ∈ a, LexemeContract eofTok l :=
                lookupAnalyzer_contract hc _ hl
              exact ih lex.endPos (stream ++ [lex]) st
                ((st.getLast?).getD default_state) a out hamem h hmem' hchain'
                hhead' hnil' hlast'

/-- C2. For both engines, under the lexeme contract (each emitted token
starts at the cursor — the code's own debug assertion — is non-empty and
is not EOF-tagged): every stream a successful `tokenize` returns ends
with exactly one EOF token spanning `[len, len]`, every other token is
non-EOF with `start < endPos`, the first token starts at 0, adjacent
tokens satisfy `prev.endPos = next.start`, and byte starts strictly
increase. -/
theorem tokenize_stream_wellformed (lexers : List LexemeFn)
    (analyzers : List (Nat × List LexemeFn)) (default_state eofTok : Nat)
    (code : List Nat) (fuel : Nat)
    (hc1 : ∀ l ∈ lexers, LexemeContract eofTok l)
    (hc2 : ∀ p ∈ analyzers, ∀ l ∈ p.2, LexemeContract eofTok l) :
    (∀ out, Tokenizer.tokenize lexers eofTok code fuel = some (Except.ok out) →
      TokenStreamInvariant eofTok code.length out) ∧
    (∀ out, CombinedTokenizer.tokenize analyzers default_state eofTok code fuel =
      some (Except.ok out) → TokenStreamInvariant eofTok code.length out) := by
  have assemble :
      ∀ out : List (Lex Nat),
        ((∃ s', out = s' ++ [Lex.mk eofTok code.length code.length] ∧
          ∀ t ∈ s', t.token ≠ eofTok ∧ t.start < t.endPos) ∧
        List.Chain' (fun a b => a.endPos = b.start) out ∧
        (∀ hd, out.head? = some hd → hd.start = 0)) →
        TokenStreamInvariant eofTok code.length out := by
    intro out ⟨⟨s', hout, hs'⟩, hchain, hhead⟩
    refine ⟨⟨s', hout, hs'⟩, hchain, hhead, ?_⟩
    apply chain_lt_of_adj out hchain
    intro t ht
    rw [hout, List.dropLast_concat] at ht
    exact (hs' t ht).2
  constructor
  · intro out h
    exact assemble out
      (tokenizeGo_stream_invariant lexers eofTok code hc1 fuel 0 [] [] out h
        (by simp) (by simp) (by simp) (fun _ => rfl) (by simp))
  · intro out h
    unfold CombinedTokenizer.tokenize at h
    cases hl : CombinedTokenizer.lookupAnalyzer analyzers default_state with
    | none => rw [hl] at h; simp at h
    | some a =>
      rw [hl] at h
      have hamem : ∀ l ∈ a, LexemeContract eofTok l :=
        lookupAnalyzer_contract hc2 _ hl
      exact assemble out
        (combinedTokenizeGo_stream_invariant analyzers default_state eofTok code hc2
          fuel 0 [] [] default_state a out hamem h
          (by simp) (by simp) (by simp) (fun _ => rfl) (by simp))

/-- C2 witness: the engines run with the always-one-byte lexeme on the
two-byte input "ab" return `[⟨5,0,1⟩, ⟨5,1,2⟩, ⟨99,2,2⟩]`, and the
stream invariant holds of it. -/
theorem tokenize_stream_wellformed_witness :
    Tokenizer.tokenize [c2Lexeme] 99 [97, 98] 5 =
      some (Except.ok [⟨5, 0, 1⟩, ⟨5, 1, 2⟩, ⟨99, 2, 2⟩]) ∧
    TokenStreamInvariant 99 2 [⟨5, 0, 1⟩, ⟨5, 1, 2⟩, ⟨99, 2, 2⟩] := by
  have hc1 : ∀ l ∈ [c2Lexeme], LexemeContract 99 l := by
    intro l hl
    simp at hl
    subst hl
    intro code pointer stream stack lex st h
    simp only [c2Lexeme, Option.some.injEq, Prod.mk.injEq] at h
    obtain ⟨rfl, rfl⟩ := h
    refine ⟨rfl, ?_, ?_⟩
    · show pointer < pointer + 1
      omega
    · show 5 ≠ 99
      omega
  have hc2 : ∀ p ∈ ([] : List (Nat × List LexemeFn)), ∀ l ∈ p.2,
      LexemeContract 99 l := by simp
  refine ⟨rfl, ?_⟩
  have h := (tokenize_stream_wellformed [c2Lexeme] [] 0 99 [97, 98] 5 hc1 hc2).1
    [⟨5, 0, 1⟩, ⟨5, 1, 2⟩, ⟨99, 2, 2⟩] rfl
  simpa using h

/-- C10 witness: with no lexemes at all, tokenizing the empty input
fails at position 0 in both engines. -/
theorem tokenize_empty_never_lone_eof_witness :
    Tokenizer.tokenize [] 99 [] 1 = some (Except.error (tokenizeError [] 0)) ∧
    CombinedTokenizer.tokenize [(0, [])] 0 99 [] 1 =
      some (Except.error (tokenizeError [] 0)) := by
  exact ⟨(tokenize_empty_never_lone_eof [] [(0, [])] 0 99 1).2.1 [] rfl (by omega),
    (tokenize_empty_never_lone_eof [] [(0, [])] 0 99 1).2.2.2.2 [] [] rfl rfl
      (by omega)⟩

/-! ## Theorems for claim C6 -/

/-- Characterization of the embedded Rust binary search on weakly
monotone keys: a hit `inl i` is an in-range exact match; a miss `inr i`
is an insertion point, with every key before it below the target and
every key from it on above the target. -/
theorem binarySearchGo_spec (keys : List Nat) (target : Nat)
    (hmono : ∀ i j, i ≤ j → j < keys.length → keys.getD i 0 ≤ keys.getD j 0) :
    ∀ fuel left right,
      left ≤ right → right ≤ keys.length → right - left ≤ fuel →
      (∀ j, j < left → keys.getD j 0 < target) →
      (∀ j, right ≤ j → j < keys.length → target < keys.getD j 0) →
      (match binarySearchGo keys target fuel left right with
       | Sum.inl i => i < keys.length ∧ keys.getD i 0 = target
       | Sum.inr i => i ≤ keys.length ∧
           (∀ j, j < i → keys.getD j 0 < target) ∧
           (∀ j, i ≤ j → j < keys.length → target < keys.getD j 0)) := by
  intro fuel
  induction fuel with
  | zero =>
    intro left right hlr hrlen hfuel hlow hhigh
    have : left = right := by omega
    subst this
    simp only [binarySearchGo]
    exact ⟨by omega, hlow, fun j hj hjl => hhigh j hj hjl⟩
  | succ f ih =>
    intro left right hlr hrlen hfuel hlow hhigh
    simp only [binarySearchGo]
    by_cases hcase : left < right
    · rw [if_pos hcase]
      have hmidlt : left + (right - left) / 2 < right := by omega
      have hmidge : left ≤ left + (right - left) / 2 := by omega
      have hmidlen : left + (right - left) / 2 < keys.length := by omega
      by_cases h1 : keys.getD (left + (right - left) / 2) 0 < target
      · rw [if_pos h1]
        apply ih (left + (right - left) / 2 + 1) right (by omega) hrlen (by omega)
        · intro j hj
          have hjm : j ≤ left + (right - left) / 2 := by omega
          calc keys.getD j 0 ≤ keys.getD (left + (right - left) / 2) 0 :=
                hmono j _ hjm hmidlen
            _ < target := h1
        · exact hhigh
      · rw [if_neg h1]
        by_cases h2 : target < keys.getD (left + (right - left) / 2) 0
        · rw [if_pos h2]
          apply ih left (left + (right - left) / 2) hmidge (by omega) (by omega) hlow
          intro j hj hjl
          calc target < keys.getD (left + (right - left) / 2) 0 := h2
            _ ≤ keys.getD j 0 := hmono _ j hj hjl
        · rw [if_neg h2]
          exact ⟨hmidlen, by omega⟩
    · rw [if_neg hcase]
      have : left = right := by omega
      subst this
      exact ⟨by omega, hlow, fun j hj hjl => hhigh j hj hjl⟩

/-- `findIdx` computation rule used to pin the insertion point: if the
predicate is false strictly before `n` and true at `n` (when in range),
then `findIdx` returns `n`. -/
theorem findIdx_eq_of (p : Nat → Bool) :
    ∀ (l : List Nat) (n : Nat), n ≤ l.length →
      (∀ j, j < n → j < l.length → p (l.getD j 0) = false) →
      (n < l.length → p (l.getD n 0) = true) →
      l.findIdx p = n := by
  intro l
  induction l with
  | nil =>
    intro n hn _ _
    simp at hn
    simp [hn]
  | cons a t ih =>
    intro n hn hbefore hat
    cases n with
    | zero =>
      have hpa : p a = true := hat (by simp)
      simp [List.findIdx_cons, hpa]
    | succ m =>
      have hpa : p a = false := hbefore 0 (by omega) (by simp)
      simp only [List.findIdx_cons, hpa, cond_false]
      have := ih m (by simpa using hn)
        (fun j hj hjl => hbefore (j + 1) (by omega) (by simpa using hjl))
        (fun hm => hat (by simpa using hm))
      omega

/-- `findIdx` over a mapped list tests the composite predicate. -/
theorem findIdx_map_comp (f : Nat → Nat) (p : Nat → Bool) :
    ∀ l : List Nat, (l.map f).findIdx p = l.findIdx (fun x => p (f x)) := by
  intro l
  induction l with
  | nil => simp
  | cons a t ih => simp [List.findIdx_cons, ih]

/-- Under strictly increasing structural byte starts, the
`Ok i ↦ i + 1 / Err i ↦ i` choice `create_error` makes on top of
`filtered_index_at` is exactly the index of the first structural token
starting STRICTLY AFTER the probed position. -/
theorem filtered_index_at_strictly_after (ts : TokenStream) (pos : Nat)
    (hsorted : List.Pairwise (· < ·)
      (ts.filtered_stream.map fun s => (ts.getRaw s).start)) :
    (∀ i, ts.filtered_index_at pos = Sum.inl i →
      i + 1 = firstStrictlyAfter ts pos) ∧
    (∀ i, ts.filtered_index_at pos = Sum.inr i →
      i = firstStrictlyAfter ts pos) := by
  have hkeys :
      ∀ i j, i ≤ j →
        j < (ts.filtered_stream.map fun s => (ts.getRaw s).start).length →
        (ts.filtered_stream.map fun s => (ts.getRaw s).start).getD i 0 ≤
          (ts.filtered_stream.map fun s => (ts.getRaw s).start).getD j 0 := by
    intro i j hij hjl
    rcases Nat.eq_or_lt_of_le hij with rfl | hlt
    · exact Nat.le_refl _
    · have hil : i < (ts.filtered_stream.map fun s => (ts.getRaw s).start).length := by
        omega
      have := (List.pairwise_iff_get.mp hsorted) ⟨i, hil⟩ ⟨j, hjl⟩ hlt
      rw [List.getD_eq_get?, List.getD_eq_get?, List.get?_eq_get hil,
        List.get?_eq_get hjl]
      exact Nat.le_of_lt this
  have hspec := binarySearchGo_spec (ts.filtered_stream.map fun s => (ts.getRaw s).start)
    pos hkeys ts.filtered_stream.length 0
    (ts.filtered_stream.map fun s => (ts.getRaw s).start).length
    (by simp) (by simp) (by simp) (by omega) (by omega)
  have hfi : ts.filtered_index_at pos =
      binarySearchGo (ts.filtered_stream.map fun s => (ts.getRaw s).start) pos
        ts.filtered_stream.length 0
        (ts.filtered_stream.map fun s => (ts.getRaw s).start).length := by
    simp [TokenStream.filtered_index_at, binarySearchByKey]
  have hfsa : firstStrictlyAfter ts pos =
      (ts.filtered_stream.map fun s => (ts.getRaw s).start).findIdx
        (fun k => decide (pos < k)) := by
    rw [firstStrictlyAfter, findIdx_map_comp]
  constructor
  · intro i hi
    rw [hfi] at hi
    rw [hi] at hspec
    obtain ⟨hilen, hival⟩ := hspec
    rw [hfsa]
    symm
    apply findIdx_eq_of
    · omega
    · intro j hj hjl
      have : (ts.filtered_stream.map fun s => (ts.getRaw s).start).getD j 0 ≤ pos := by
        rcases Nat.lt_or_ge j i with hji | hji
        · calc (ts.filtered_stream.map fun s => (ts.getRaw s).start).getD j 0 ≤
                (ts.filtered_stream.map fun s => (ts.getRaw s).start).getD i 0 :=
              hkeys j i (by omega) hilen
            _ = pos := hival
        · have : j = i := by omega
          subst this
          omega
      simpa using this
    · intro hlen
      have h1 : (ts.filtered_stream.map fun s => (ts.getRaw s).start).getD i 0 <
          (ts.filtered_stream.map fun s => (ts.getRaw s).start).getD (i + 1) 0 := by
        have := (List.pairwise_iff_get.mp hsorted) ⟨i, hilen⟩ ⟨i + 1, hlen⟩
          (Fin.mk_lt_mk.mpr (by omega))
        rw [List.getD_eq_get?, List.getD_eq_get?, List.get?_eq_get hilen,
          List.get?_eq_get hlen]
        exact this
      simp only [decide_eq_true_eq]
      omega
  · intro i hi
    rw [hfi] at hi
    rw [hi] at hspec
    obtain ⟨hilen, hbelow, habove⟩ := hspec
    rw [hfsa]
    symm
    apply findIdx_eq_of
    · omega
    · intro j hj hjl
      have := hbelow j hj
      simp only [decide_eq_false_iff_not]
      omega
    · intro hlen
      have := habove i (Nat.le_refl i) hlen
      simp only [decide_eq_true_eq]
      omega

/-- C6 (amended). When the structural byte starts are strictly
increasing, the tokenized driver's `create_error` locates an `Unparsed`
failure at the FIRST structural token strictly after `maxParsedPoint`
(an exact binary-search hit at `maxParsedPoint` advances one more
index): if that token exists and is EOF-tagged the message is
"Unexpected end of file." and the pointer its start; if it exists and is
not EOF the pointer is its start and the message names its source text
(plus the token tag in debug builds); if it does not exist the pointer
is the input length with the EOF message; and a `Validation` error keeps
its own position and message verbatim — all followed by the
"Failed to parse at line/column" suffix. -/
theorem create_error_locates_strictly_after {ρ : Type} (c : Cache ρ) (debug : Bool)
    (renderBytes : List Nat → String) (renderTok : Nat → String) (code : List Nat)
    (ts : TokenStream) (eofTok : Nat)
    (hsorted : List.Pairwise (· < ·)
      (ts.filtered_stream.map fun s => (ts.getRaw s).start)) :
    (∀ lex, ts.get (firstStrictlyAfter ts c.max_parsed_point) = some lex →
      c.create_error debug renderBytes renderTok code ts eofTok .Unparsed =
        ⟨lex.start,
          (if lex.token = eofTok then "Unexpected end of file.\n"
           else if debug then
             "Unexpected token " ++
               renderBytes ((code.drop lex.start).take (lex.endPos - lex.start)) ++
               "(" ++ renderTok lex.token ++ ").\n"
           else
             "Unexpected " ++
               renderBytes ((code.drop lex.start).take (lex.endPos - lex.start)) ++
               ".\n") ++
          "Failed to parse at " ++ (Code.obtain_position code lex.start).render ++
          ".\n"⟩) ∧
    (ts.get (firstStrictlyAfter ts c.max_parsed_point) = none →
      c.create_error debug renderBytes renderTok code ts eofTok .Unparsed =
        ⟨code.length, "Unexpected end of file.\n" ++ "Failed to parse at " ++
          (Code.obtain_position code code.length).render ++ ".\n"⟩) ∧
    (∀ pos msg,
      c.create_error debug renderBytes renderTok code ts eofTok (.Validation pos msg) =
        ⟨pos, msg ++ "\n" ++ "Failed to parse at " ++
          (Code.obtain_position code pos).render ++ ".\n"⟩) := by
  have hidx : (match ts.filtered_index_at c.max_parsed_point with
      | Sum.inl i => i + 1
      | Sum.inr i => i) = firstStrictlyAfter ts c.max_parsed_point := by
    cases hf : ts.filtered_index_at c.max_parsed_point with
    | inl i =>
      exact (filtered_index_at_strictly_after ts c.max_parsed_point hsorted).1 i hf
    | inr i =>
      exact (filtered_index_at_strictly_after ts c.max_parsed_point hsorted).2 i hf
  refine ⟨?_, ?_, ?_⟩
  · intro lex hget
    rw [← hidx] at hget
    simp only [Cache.create_error, hget]
    by_cases he : lex.token = eofTok
    · simp [he]
    · by_cases hd : debug
      · simp [he, hd]
      · simp [he, hd]
  · intro hget
    rw [← hidx] at hget
    simp only [Cache.create_error, hget]
  · intro pos msg
    simp only [Cache.create_error]

/-- C6 witness: the amended localisation evaluated on the concrete
three-token stream over "ab" with `maxParsedPoint = 0`: the chosen token
is `⟨2, 1, 2⟩`, the pointer 1. -/
theorem create_error_locates_strictly_after_witness :
    (Cache.root Unit).create_error false (fun _ => "s") (fun _ => "t") [97, 98]
        c6Stream 0 .Unparsed =
      ⟨1, "Unexpected " ++ "s" ++ ".\n" ++ "Failed to parse at " ++
        (Code.obtain_position [97, 98] 1).render ++ ".\n"⟩ := by
  have h := (create_error_locates_strictly_after (Cache.root Unit) false
    (fun _ => "s") (fun _ => "t") [97, 98] c6Stream 0 (by decide)).1
    ⟨2, 1, 2⟩ rfl
  simpa using h

/-- C6 (counterexample). With `maxParsedPoint = 0` on the stream whose
structural tokens start at 0, 1 and 2, the nearest structural token AT
OR AFTER `maxParsedPoint` is `⟨1, 0, 1⟩` at byte 0 — but `create_error`
points at byte 1 (the exact hit at 0 moves one filtered index past it),
so the claim's "at or after" localisation is wrong. -/
theorem create_error_at_or_after_cex :
    (Cache.root Unit).max_parsed_point = 0 ∧
    claimNearestAtOrAfter c6Stream 0 = some ⟨1, 0, 1⟩ ∧
    ((Cache.root Unit).create_error false (fun _ => "s") (fun _ => "t") [97, 98]
      c6Stream 0 .Unparsed).pointer = 1 ∧
    ((Cache.root Unit).create_error false (fun _ => "s") (fun _ => "t") [97, 98]
      c6Stream 0 .Unparsed).pointer ≠ 0 := by
  refine ⟨rfl, by decide, rfl, by decide⟩

end LangPt
